import Mathlib

/-!
Verification development for `synth_samples_sdl2_2.c` (lundstroem/synth-samples-sdl2),
a wavetable synthesizer driven by an SDL2 pull-based audio callback.

Shallow embedding conventions:
* C `double` arithmetic on phase/pitch values is embedded as exact rational
  arithmetic (`ℚ`); the transcendental sine-table builder is embedded over `ℝ`.
* The C cast `(int)x` truncates toward zero; it is embedded as `truncQ` / `truncR`.
* The interleaved signed-16-bit output buffer is a `List ℤ` of 16-bit sample
  slots (two consecutive slots form one stereo frame); `memset(...,0,len)`
  becomes `List.replicate (len / 2) 0`.
* Global mutable state (`phase_double`, `phase_int`) is threaded explicitly as
  the `Osc` structure; (`note`, `octave`) as the `Voice` structure.
-/

namespace Synth

/-- C cast `(int)q` on a rational: truncation toward zero. -/
def truncQ (q : ℚ) : ℤ := if 0 ≤ q then ⌊q⌋ else -⌊-q⌋

/-- `static int sample_rate = 44100;` -/
def sample_rate : ℕ := 44100

/-- `static int table_length = 1024;` -/
def table_length : ℕ := 1024

/-- `static const double chromatic_ratio = 1.059463094359295264562;`
(the decimal literal read exactly, as a rational). -/
def chromatic_ratio : ℚ := 1.059463094359295264562

/-- `get_pitch`: `p = pow(chromatic_ratio, note - 57); p *= 440;`
for the integer note values the program uses. -/
def get_pitch (note : ℤ) : ℚ := 440 * chromatic_ratio ^ (note - 57)

/-- The oscillator state: globals `phase_double` and `phase_int`. -/
structure Osc where
  phase_double : ℚ
  phase_int : ℤ
deriving Repr, DecidableEq

/-- One advance-and-wrap step of `write_samples` (lines 241-247):
`phase_double += phase_increment; phase_int = (int)phase_double;
if (phase_double >= table_length) { diff = phase_double - table_length;
phase_double = diff; phase_int = (int)diff; }` with the table length `N`. -/
def stepOsc (inc : ℚ) (N : ℕ) (o : Osc) : Osc :=
  if (N : ℚ) ≤ o.phase_double + inc then
    ⟨o.phase_double + inc - N, truncQ (o.phase_double + inc - N)⟩
  else ⟨o.phase_double + inc, truncQ (o.phase_double + inc)⟩

/-- `sample *= 0.3;` on an `int16_t`: double multiply, truncated back to int
(the literal `0.3` taken at its ideal rational value). -/
def scaleSample (s : ℤ) : ℤ := truncQ ((s : ℚ) * (3 / 10))

/-- `phase_increment = (get_pitch(d_note) / d_sample_rate) * d_table_length;` -/
def phase_increment (note : ℤ) : ℚ :=
  get_pitch note / (sample_rate : ℚ) * (table_length : ℚ)

/-- The wavetable indices dereferenced by one frame of the `write_samples`
loop body: the read `sine_wave_table[phase_int]` happens only under the guard
`phase_int < table_length && phase_int > -1`. -/
def frameReads (inc : ℚ) (N : ℕ) (o : Osc) : List ℕ :=
  if (stepOsc inc N o).phase_int < (N : ℤ) ∧ -1 < (stepOsc inc N o).phase_int then
    [(stepOsc inc N o).phase_int.toNat]
  else []

/-- One iteration (`i`, step 2) of the `write_samples` loop: advance and wrap
the phase, then, if `phase_int < table_length && phase_int > -1`, write the
scaled table sample to slots `idx` (left) and `idx+1` (right). The
`s_byteStream != NULL` check is dropped: the buffer is always present here. -/
def writeFrame (inc : ℚ) (N : ℕ) (table : List ℤ) (idx : ℕ)
    (ob : Osc × List ℤ) : Osc × List ℤ :=
  if (stepOsc inc N ob.1).phase_int < (N : ℤ) ∧ -1 < (stepOsc inc N ob.1).phase_int then
    (stepOsc inc N ob.1,
      (ob.2.set idx
          (scaleSample (table.getD (stepOsc inc N ob.1).phase_int.toNat 0))).set
        (idx + 1)
        (scaleSample (table.getD (stepOsc inc N ob.1).phase_int.toNat 0)))
  else (stepOsc inc N ob.1, ob.2)

/-- `write_samples(s_byteStream, begin, end, length)` (lines 225-259): if
`note > 0`, loop `for (i = 0; i < length; i += 2)` writing one stereo frame
per iteration at slot offset `start + i`; otherwise do nothing. -/
def write_samples (note : ℤ) (table : List ℤ) (start len : ℕ)
    (ob : Osc × List ℤ) : Osc × List ℤ :=
  if 0 < note then
    (List.range ((len + 1) / 2)).foldl
      (fun acc f => writeFrame (phase_increment note) table_length table
        (start + 2 * f) acc) ob
  else ob

/-- `audio_callback` (lines 192-223): zero the whole byte buffer, return at
once if `quit`, else reinterpret as `byte_stream_length / 2` signed 16-bit
slots and render `remain / 64` chunks via
`write_samples(s, i*64, i*64+64, 64)`. -/
def audio_callback (q : Bool) (note : ℤ) (table : List ℤ) (byteLen : ℕ)
    (o : Osc) : Osc × List ℤ :=
  if q then (o, List.replicate (byteLen / 2) 0)
  else
    (List.range (byteLen / 2 / 64)).foldl
      (fun acc i => write_samples note table (64 * i) 64 acc)
      (o, List.replicate (byteLen / 2) 0)

/-- Modelled from the spec's words for the refinement comparison of the
chunking claim: "partition the buffer's frame range (byte length / 4) into
fixed-size chunks of 64 frames, invoking the per-chunk fill routine over
[chunk_start, chunk_start+64)", each frame advancing the phase once and
writing both channels. -/
def audio_callback_framechunks (q : Bool) (note : ℤ) (table : List ℤ)
    (byteLen : ℕ) (o : Osc) : Osc × List ℤ :=
  if q then (o, List.replicate (byteLen / 2) 0)
  else
    (List.range (byteLen / 4 / 64)).foldl
      (fun acc c =>
        (List.range 64).foldl
          (fun acc2 f =>
            if 0 < note then
              writeFrame (phase_increment note) table_length table
                (2 * (64 * c + f)) acc2
            else acc2) acc)
      (o, List.replicate (byteLen / 2) 0)

/-- C `fmod x y` for the nonnegative arguments used here (reference modulo
implementation the spec compares against): `x - y * ⌊x / y⌋`. -/
def fmodQ (x y : ℚ) : ℚ := x - y * ⌊x / y⌋

/-- The sequence of wavetable indices (`phase_int`) produced by `n`
advance-and-wrap steps of the oscillator from state `o`. -/
def indexSeq (inc : ℚ) (N : ℕ) : ℕ → Osc → List ℤ
  | 0, _ => []
  | n + 1, o =>
    let o' := stepOsc inc N o
    o'.phase_int :: indexSeq inc N n o'

/-- C cast `(int)x` on a real value: truncation toward zero. -/
noncomputable def truncR (x : ℝ) : ℤ := if 0 ≤ x then ⌊x⌋ else -⌊-x⌋

/-- `build_sine_table` (lines 162-179) in exact real arithmetic: with
`phase_increment = (2.0 * pi) / wave_length`, the accumulated `current_phase`
at index `i` equals `i * (2π / wave_length)`, and
`data[i] = (int16_t)(int)(sin(current_phase) * INT16_MAX)` with
`INT16_MAX = 32767`; the `int16_t` cast is the identity because the value is
already within range. -/
noncomputable def build_sine_table (wave_length : ℕ) : List ℤ :=
  (List.range wave_length).map
    (fun i : ℕ =>
      truncR (Real.sin ((i : ℝ) * (2 * Real.pi / (wave_length : ℝ))) * 32767))

/-- The voice state: globals `note` and `octave`. -/
structure Voice where
  note : ℤ
  octave : ℤ
deriving Repr, DecidableEq

/-- Initial globals: `static int note = 30; static int octave = 2;` -/
def initVoice : Voice := ⟨30, 2⟩

/-- `static int max_note = 131;` -/
def max_note : ℤ := 131

/-- `static int min_note = 12;` -/
def min_note : ℤ := 12

/-- The keys `handle_note_keys` reacts to (all other syms hit `default`). -/
inductive Key where
  | plus | minus
  | z | s | x | d | c | v | g | b | h | n | j | m | comma | l | period
  | q | two | w | three | e | r | five | t | six | y | seven | u | i
  | nine | o | zero | p
  | other
deriving Repr, DecidableEq

/-- The `new_note` value each note key assigns in the `switch` of
`handle_note_keys` (lines 452-553); `none` for plus/minus/default. -/
def noteKeyValue : Key → Option ℤ
  | .z => some 12 | .s => some 13 | .x => some 14 | .d => some 15
  | .c => some 16 | .v => some 17 | .g => some 18 | .b => some 19
  | .h => some 20 | .n => some 21 | .j => some 22 | .m => some 23
  | .comma => some 24 | .l => some 25 | .period => some 26
  | .q => some 24 | .two => some 25 | .w => some 26 | .three => some 27
  | .e => some 28 | .r => some 29 | .five => some 30 | .t => some 31
  | .six => some 32 | .y => some 33 | .seven => some 34 | .u => some 35
  | .i => some 36 | .nine => some 37 | .o => some 38 | .zero => some 39
  | .p => some 40
  | _ => none

/-- `handle_note_keys` (lines 420-561) as a state transformer on `Voice`:
`SDLK_PLUS`: `octave++`, clamp at 6, and only when not clamped `note += 12`
clamped to `max_note`; `SDLK_MINUS` symmetrically with `min_note`;
a note key: `note = new_note; note += octave * 12;` (under the
`new_note > -1` guard); anything else: no change. -/
def handle_note_keys (k : Key) (st : Voice) : Voice :=
  match k with
  | .plus =>
      let oc := st.octave + 1
      if 6 < oc then { st with octave := 6 }
      else
        let nn := st.note + 12
        ⟨if max_note < nn then max_note else nn, oc⟩
  | .minus =>
      let oc := st.octave - 1
      if oc < 0 then { st with octave := 0 }
      else
        let nn := st.note - 12
        ⟨if nn < min_note then min_note else nn, oc⟩
  | k =>
      match noteKeyValue k with
      | none => st
      | some v => if -1 < v then ⟨v + st.octave * 12, st.octave⟩ else st

end Synth

namespace Synth

/-! ## Rational truncation and the reference modulo -/

theorem truncQ_of_nonneg (q : ℚ) (h : 0 ≤ q) : truncQ q = ⌊q⌋ := if_pos h

theorem fmodQ_nonneg (x y : ℚ) (hy : 0 < y) : 0 ≤ fmodQ x y := by
  have h1 : (⌊x / y⌋ : ℚ) ≤ x / y := Int.floor_le _
  have h2 : y * (x / y) = x := mul_div_cancel₀ x (ne_of_gt hy)
  have h3 : y * (⌊x / y⌋ : ℚ) ≤ y * (x / y) :=
    mul_le_mul_of_nonneg_left h1 (le_of_lt hy)
  unfold fmodQ
  linarith

theorem fmodQ_lt (x y : ℚ) (hy : 0 < y) : fmodQ x y < y := by
  have h1 : x / y < (⌊x / y⌋ : ℚ) + 1 := Int.lt_floor_add_one _
  have h2 : y * (x / y) = x := mul_div_cancel₀ x (ne_of_gt hy)
  have h3 : y * (x / y) < y * ((⌊x / y⌋ : ℚ) + 1) :=
    mul_lt_mul_of_pos_left h1 hy
  unfold fmodQ
  nlinarith

theorem fmodQ_unique (y : ℚ) (hy : 0 < y) (q : ℤ) (r : ℚ)
    (h0 : 0 ≤ r) (h1 : r < y) : fmodQ (y * q + r) y = r := by
  have hfloor : ⌊(y * q + r) / y⌋ = q := by
    have hdiv : (y * q + r) / y = q + r / y := by
      field_simp
      ring
    rw [hdiv]
    rw [Int.floor_eq_iff]
    constructor
    · have : 0 ≤ r / y := div_nonneg h0 (le_of_lt hy)
      linarith
    · have : r / y < 1 := (div_lt_one hy).mpr h1
      linarith
  unfold fmodQ
  rw [hfloor]
  ring

theorem fmodQ_zero (y : ℚ) : fmodQ 0 y = 0 := by
  unfold fmodQ
  simp

/-! ## The advance-and-wrap step against the reference modulo -/

/-- One advance-and-wrap step carries the residue `fmodQ a N` to the residue
`fmodQ (a + inc) N` and records its floor as `phase_int`. -/
theorem stepOsc_fmod (N : ℕ) (inc : ℚ) (h1 : 0 < inc) (h2 : inc < N)
    (a : ℚ) (z : ℤ) :
    stepOsc inc N ⟨fmodQ a N, z⟩
      = ⟨fmodQ (a + inc) N, ⌊fmodQ (a + inc) N⌋⟩ := by
  have hN : (0 : ℚ) < N := lt_trans h1 h2
  have hx0 : 0 ≤ fmodQ a N := fmodQ_nonneg a N hN
  have hx1 : fmodQ a N < N := fmodQ_lt a N hN
  have ha : a = N * ⌊a / N⌋ + fmodQ a N := by
    unfold fmodQ; ring
  unfold stepOsc
  by_cases hc : (N : ℚ) ≤ fmodQ a N + inc
  · have hr0 : 0 ≤ fmodQ a N + inc - N := by linarith
    have hr1 : fmodQ a N + inc - N < N := by linarith
    have key : fmodQ (a + inc) N = fmodQ a N + inc - N := by
      have heq : a + inc
          = (N : ℚ) * ((⌊a / (N : ℚ)⌋ + 1 : ℤ) : ℚ) + (fmodQ a N + inc - N) := by
        push_cast
        linarith [ha]
      rw [heq]
      exact fmodQ_unique N hN (⌊a / (N : ℚ)⌋ + 1) _ hr0 hr1
    simp only [if_pos hc, key]
    have : truncQ (fmodQ a N + inc - N) = ⌊fmodQ a N + inc - N⌋ :=
      truncQ_of_nonneg _ hr0
    rw [this]
  · push_neg at hc
    have hr0 : 0 ≤ fmodQ a N + inc := by linarith
    have key : fmodQ (a + inc) N = fmodQ a N + inc := by
      have heq : a + inc
          = (N : ℚ) * ((⌊a / (N : ℚ)⌋ : ℤ) : ℚ) + (fmodQ a N + inc) := by
        linarith [ha]
      rw [heq]
      exact fmodQ_unique N hN ⌊a / (N : ℚ)⌋ _ hr0 hc
    simp only [if_neg (not_le.mpr hc), key]
    have : truncQ (fmodQ a N + inc) = ⌊fmodQ a N + inc⌋ :=
      truncQ_of_nonneg _ hr0
    rw [this]

/-- Closed form of the oscillator's index sequence: after starting from the
residue of a cumulative advance `a`, the `k`-th emitted index is the floor of
the reference modulo of `a + (k+1)·inc`. -/
theorem indexSeq_closed (N : ℕ) (inc : ℚ) (h1 : 0 < inc) (h2 : inc < N) :
    ∀ (n : ℕ) (a : ℚ) (z : ℤ),
      indexSeq inc N n ⟨fmodQ a N, z⟩
        = (List.range n).map (fun k : ℕ => ⌊fmodQ (a + ((k : ℚ) + 1) * inc) N⌋) := by
  intro n
  induction n with
  | zero => intro a z; simp [indexSeq]
  | succ m ih =>
    intro a z
    rw [List.range_succ_eq_map]
    simp only [indexSeq, stepOsc_fmod N inc h1 h2 a z, List.map_cons, List.map_map]
    congr 1
    · norm_num
    · rw [ih (a + inc) ⌊fmodQ (a + inc) N⌋]
      apply List.map_congr_left
      intro k _
      simp only [Function.comp]
      have harg : a + inc + ((k : ℚ) + 1) * inc
          = a + (((k + 1 : ℕ) : ℚ) + 1) * inc := by
        push_cast
        ring
      rw [harg]

/-! ## Claims about the oscillator's phase -/

/-- C1: with sample_rate 44100, table_length 1024 and note 57 held for 100
frames, the oscillator's index sequence is exactly
`floor(fmod(k * ((440/44100)*1024), 1024))` for k = 1..100; and in general,
for any increment `0 < inc < N`, the floor-index sequence of the repeated
advance-and-wrap step equals the one obtained by a single reference modulo of
the cumulative advance at every step. -/
theorem indexSeq_eq_fmod_reference :
    indexSeq (phase_increment 57) 1024 100 ⟨0, 0⟩
      = (List.range 100).map
          (fun k : ℕ => ⌊fmodQ (((k : ℚ) + 1) * ((440 / 44100) * 1024)) 1024⌋) ∧
    ∀ (N : ℕ) (inc : ℚ), 0 < inc → inc < N → ∀ n : ℕ,
      indexSeq inc N n ⟨0, 0⟩
        = (List.range n).map (fun k : ℕ => ⌊fmodQ (((k : ℚ) + 1) * inc) N⌋) := by
  have general : ∀ (N : ℕ) (inc : ℚ), 0 < inc → inc < N → ∀ n : ℕ,
      indexSeq inc N n ⟨0, 0⟩
        = (List.range n).map (fun k : ℕ => ⌊fmodQ (((k : ℚ) + 1) * inc) N⌋) := by
    intro N inc hinc hN n
    have h0 : (⟨0, 0⟩ : Osc) = ⟨fmodQ 0 N, 0⟩ := by rw [fmodQ_zero]
    rw [h0, indexSeq_closed N inc hinc hN n 0 0]
    apply List.map_congr_left
    intro k _
    rw [zero_add]
  refine ⟨?_, general⟩
  have hpi : phase_increment 57 = (440 / 44100) * 1024 := by
    unfold phase_increment get_pitch sample_rate table_length
    norm_num
  rw [hpi]
  apply general
  · norm_num
  · norm_num

/-- A single advance-and-wrap step keeps the phase inside `[0, N)`. -/
theorem stepOsc_range (N : ℕ) (inc : ℚ) (o : Osc)
    (h1 : 0 < inc) (h2 : inc < N)
    (h3 : 0 ≤ o.phase_double) (h4 : o.phase_double < N) :
    0 ≤ (stepOsc inc N o).phase_double ∧ (stepOsc inc N o).phase_double < N := by
  unfold stepOsc
  by_cases hc : (N : ℚ) ≤ o.phase_double + inc
  · rw [if_pos hc]
    exact ⟨by simp only []; linarith, by simp only []; linarith⟩
  · rw [if_neg hc]
    push_neg at hc
    exact ⟨by simp only []; linarith, by simp only []; linarith⟩

/-- C2: from any phase in `[0, N)` and any increment `0 < inc < N`, the phase
is still in `[0, N)` after any number of advance-and-wrap steps. -/
theorem phase_wrap_invariant (N : ℕ) (inc : ℚ) (o : Osc)
    (h1 : 0 < inc) (h2 : inc < N)
    (h3 : 0 ≤ o.phase_double) (h4 : o.phase_double < N) (k : ℕ) :
    0 ≤ ((stepOsc inc N)^[k] o).phase_double ∧
      ((stepOsc inc N)^[k] o).phase_double < N := by
  induction k with
  | zero => exact ⟨h3, h4⟩
  | succ m ih =>
    rw [Function.iterate_succ_apply']
    obtain ⟨hp0, hp1⟩ := ih
    exact stepOsc_range N inc _ h1 h2 hp0 hp1

/-- C4: the pitch calculator is total (defined for every integer note, no
range validation), `pitch(57) = 440` exactly, pitches are positive and
extrapolate outside the meaningful range, one octave up multiplies the pitch
by `chromatic_ratio^12`, and that factor is `2` to well within double
precision — so `chromatic_ratio` is the twelfth root of two to at least
double precision and `pitch(n+12)/pitch(n) ≈ 2`. -/
theorem get_pitch_spec :
    get_pitch 57 = 440 ∧
    (∀ n : ℤ, 0 < get_pitch n) ∧
    (∀ n : ℤ, get_pitch (n + 12) = get_pitch n * chromatic_ratio ^ (12 : ℕ)) ∧
    (∀ n : ℤ, get_pitch (n + 12) / get_pitch n = chromatic_ratio ^ (12 : ℕ)) ∧
    |chromatic_ratio ^ (12 : ℕ) - 2| < 1 / 10 ^ 15 := by
  have hr : (0 : ℚ) < chromatic_ratio := by norm_num [chromatic_ratio]
  have hpos : ∀ n : ℤ, 0 < get_pitch n := by
    intro n
    unfold get_pitch
    positivity
  have hoct : ∀ n : ℤ, get_pitch (n + 12) = get_pitch n * chromatic_ratio ^ (12 : ℕ) := by
    intro n
    unfold get_pitch
    rw [show n + 12 - 57 = (n - 57) + (12 : ℤ) by ring, zpow_add₀ (ne_of_gt hr),
      show ((12 : ℤ)) = ((12 : ℕ) : ℤ) from rfl, zpow_natCast]
    ring
  refine ⟨?_, hpos, hoct, ?_, ?_⟩
  · unfold get_pitch
    norm_num
  · intro n
    rw [hoct n]
    exact mul_div_cancel_left₀ _ (ne_of_gt (hpos n))
  · rw [abs_lt]
    constructor <;> norm_num [chromatic_ratio]

theorem phase_wrap_invariant_witness :
    0 ≤ ((stepOsc 1 4)^[5] ⟨0, 0⟩).phase_double ∧
      ((stepOsc 1 4)^[5] ⟨0, 0⟩).phase_double < ((4 : ℕ) : ℚ) :=
  phase_wrap_invariant 4 1 ⟨0, 0⟩ (by norm_num) (by norm_num)
    (by show (0 : ℚ) ≤ 0; norm_num) (by show (0 : ℚ) < ((4 : ℕ) : ℚ); norm_num) 5

/-! ## Claims about the note/octave state -/

/-- `handle_note_keys` preserves the octave and note clamps. -/
theorem handle_note_keys_inv (k : Key) (st : Voice)
    (h1 : 0 ≤ st.octave) (h2 : st.octave ≤ 6)
    (h3 : min_note ≤ st.note) (h4 : st.note ≤ max_note) :
    0 ≤ (handle_note_keys k st).octave ∧ (handle_note_keys k st).octave ≤ 6 ∧
      min_note ≤ (handle_note_keys k st).note ∧
      (handle_note_keys k st).note ≤ max_note := by
  cases k <;>
    simp_all only [handle_note_keys, noteKeyValue, min_note, max_note] <;>
    first
      | (split_ifs <;> simp_all <;> omega)
      | simp_all

/-- C7: starting from `note = 30`, `octave = 2`, any sequence of key-down
events leaves `octave ∈ [0, 6]` and `note ∈ [min_note, max_note] = [12, 131]`. -/
theorem note_octave_invariant (ks : List Key) :
    0 ≤ (ks.foldl (fun s k => handle_note_keys k s) initVoice).octave ∧
      (ks.foldl (fun s k => handle_note_keys k s) initVoice).octave ≤ 6 ∧
      min_note ≤ (ks.foldl (fun s k => handle_note_keys k s) initVoice).note ∧
      (ks.foldl (fun s k => handle_note_keys k s) initVoice).note ≤ max_note := by
  have main : ∀ (l : List Key) (st : Voice),
      0 ≤ st.octave → st.octave ≤ 6 → min_note ≤ st.note → st.note ≤ max_note →
      0 ≤ (l.foldl (fun s k => handle_note_keys k s) st).octave ∧
        (l.foldl (fun s k => handle_note_keys k s) st).octave ≤ 6 ∧
        min_note ≤ (l.foldl (fun s k => handle_note_keys k s) st).note ∧
        (l.foldl (fun s k => handle_note_keys k s) st).note ≤ max_note := by
    intro l
    induction l with
    | nil => intro st a b c d; exact ⟨a, b, c, d⟩
    | cons k ks ih =>
      intro st a b c d
      obtain ⟨a', b', c', d'⟩ := handle_note_keys_inv k st a b c d
      exact ih (handle_note_keys k st) a' b' c' d'
  exact main ks initVoice (by decide) (by decide) (by decide) (by decide)

/-- C8: an octave increment at `octave = 6` leaves the state unchanged, an
octave decrement at `octave = 0` leaves the state unchanged, and away from
the clamp boundary the octave moves by one and the note shifts by ±12
(clamped to `max_note`/`min_note`). -/
theorem octave_clamp_behavior (s1 s2 s3 s4 : Voice)
    (h6 : s1.octave = 6) (h0 : s2.octave = 0)
    (hlt : s3.octave < 6) (hge : 1 ≤ s4.octave) :
    handle_note_keys .plus s1 = s1 ∧
    handle_note_keys .minus s2 = s2 ∧
    handle_note_keys .plus s3
      = ⟨if max_note < s3.note + 12 then max_note else s3.note + 12,
          s3.octave + 1⟩ ∧
    handle_note_keys .minus s4
      = ⟨if s4.note - 12 < min_note then min_note else s4.note - 12,
          s4.octave - 1⟩ := by
  obtain ⟨n1, o1⟩ := s1
  obtain ⟨n2, o2⟩ := s2
  obtain ⟨n3, o3⟩ := s3
  obtain ⟨n4, o4⟩ := s4
  simp only at h6 h0 hlt hge
  subst h6 h0
  refine ⟨?_, ?_, ?_, ?_⟩ <;> simp only [handle_note_keys] <;> split_ifs <;>
    first
      | rfl
      | omega

/-! ## Buffer lemmas for the callback claims -/

theorem writeFrame_osc (inc : ℚ) (N : ℕ) (table : List ℤ) (idx : ℕ)
    (ob : Osc × List ℤ) :
    (writeFrame inc N table idx ob).1 = stepOsc inc N ob.1 := by
  unfold writeFrame
  split_ifs <;> rfl

theorem writeFrame_length (inc : ℚ) (N : ℕ) (table : List ℤ) (idx : ℕ)
    (ob : Osc × List ℤ) :
    ((writeFrame inc N table idx ob).2).length = ob.2.length := by
  unfold writeFrame
  split_ifs <;> simp

theorem writeFrame_getD_ne (inc : ℚ) (N : ℕ) (table : List ℤ) (idx : ℕ)
    (ob : Osc × List ℤ) (j : ℕ) (h1 : j ≠ idx) (h2 : j ≠ idx + 1) :
    ((writeFrame inc N table idx ob).2).getD j 0 = ob.2.getD j 0 := by
  unfold writeFrame
  split_ifs
  · simp only [List.getD_eq_getElem?_getD,
      List.getElem?_set_ne (Ne.symm h2), List.getElem?_set_ne (Ne.symm h1)]
  · rfl

theorem writeFrame_pair (inc : ℚ) (N : ℕ) (table : List ℤ) (k : ℕ)
    (ob : Osc × List ℤ) (hlen : 2 * k + 1 < ob.2.length)
    (hpair : ∀ j, ob.2.getD (2 * j) 0 = ob.2.getD (2 * j + 1) 0) :
    ∀ j, ((writeFrame inc N table (2 * k) ob).2).getD (2 * j) 0
        = ((writeFrame inc N table (2 * k) ob).2).getD (2 * j + 1) 0 := by
  intro j
  by_cases hj : j = k
  · subst hj
    unfold writeFrame
    split_ifs
    · have hk : 2 * j < ob.2.length := by omega
      simp only [List.getD_eq_getElem?_getD]
      rw [List.getElem?_set_ne (by omega : 2 * j + 1 ≠ 2 * j),
        List.getElem?_set_self (by simpa using hk),
        List.getElem?_set_self (by simpa using hlen)]
    · exact hpair j
  · rw [writeFrame_getD_ne inc N table _ ob _ (by omega) (by omega),
      writeFrame_getD_ne inc N table _ ob _ (by omega) (by omega)]
    exact hpair j

theorem foldl_writeFrame_osc (inc : ℚ) (N : ℕ) (table : List ℤ) (start : ℕ) :
    ∀ (l : List ℕ) (ob : Osc × List ℤ),
      ((l.foldl (fun acc f => writeFrame inc N table (start + 2 * f) acc) ob).1)
        = (stepOsc inc N)^[l.length] ob.1 := by
  intro l
  induction l with
  | nil => intro ob; rfl
  | cons x xs ih =>
    intro ob
    simp only [List.foldl_cons, List.length_cons]
    rw [ih, writeFrame_osc, Function.iterate_succ_apply]

theorem foldl_writeFrame_length (inc : ℚ) (N : ℕ) (table : List ℤ) (start : ℕ) :
    ∀ (l : List ℕ) (ob : Osc × List ℤ),
      ((l.foldl (fun acc f => writeFrame inc N table (start + 2 * f) acc) ob).2).length
        = ob.2.length := by
  intro l
  induction l with
  | nil => intro ob; rfl
  | cons x xs ih =>
    intro ob
    simp only [List.foldl_cons]
    rw [ih, writeFrame_length]

theorem foldl_writeFrame_getD (inc : ℚ) (N : ℕ) (table : List ℤ) (start : ℕ) :
    ∀ (l : List ℕ) (ob : Osc × List ℤ) (j : ℕ),
      (∀ f ∈ l, j ≠ start + 2 * f ∧ j ≠ start + 2 * f + 1) →
      ((l.foldl (fun acc f => writeFrame inc N table (start + 2 * f) acc) ob).2).getD j 0
        = ob.2.getD j 0 := by
  intro l
  induction l with
  | nil => intro ob j _; rfl
  | cons x xs ih =>
    intro ob j hj
    simp only [List.foldl_cons]
    rw [ih _ j (fun f hf => hj f (List.mem_cons_of_mem x hf))]
    obtain ⟨hx1, hx2⟩ := hj x (List.mem_cons_self x xs)
    exact writeFrame_getD_ne inc N table _ ob j hx1 hx2

theorem foldl_writeFrame_pair (inc : ℚ) (N : ℕ) (table : List ℤ) (start : ℕ)
    (heven : start % 2 = 0) :
    ∀ (l : List ℕ) (ob : Osc × List ℤ),
      (∀ f ∈ l, start + 2 * f + 1 < ob.2.length) →
      (∀ j, ob.2.getD (2 * j) 0 = ob.2.getD (2 * j + 1) 0) →
      ∀ j, ((l.foldl (fun acc f => writeFrame inc N table (start + 2 * f) acc) ob).2).getD (2 * j) 0
        = ((l.foldl (fun acc f => writeFrame inc N table (start + 2 * f) acc) ob).2).getD (2 * j + 1) 0 := by
  intro l
  induction l with
  | nil => intro ob _ hpair j; exact hpair j
  | cons x xs ih =>
    intro ob hlen hpair j
    simp only [List.foldl_cons]
    have hx : start + 2 * x = 2 * (start / 2 + x) := by omega
    have hlen' : 2 * (start / 2 + x) + 1 < ob.2.length := by
      rw [← hx]; exact hlen x (List.mem_cons_self x xs)
    have hpair' := writeFrame_pair inc N table (start / 2 + x) ob hlen' hpair
    rw [hx] at *
    apply ih
    · intro f hf
      rw [writeFrame_length]
      have := hlen f (List.mem_cons_of_mem x hf)
      omega
    · exact hpair'

theorem getD_replicate_zero (n j : ℕ) : (List.replicate n (0 : ℤ)).getD j 0 = 0 := by
  simp [List.getD_eq_getElem?_getD]

theorem write_samples_nonpos (note : ℤ) (table : List ℤ) (start len : ℕ)
    (ob : Osc × List ℤ) (h : ¬ 0 < note) :
    write_samples note table start len ob = ob := by
  unfold write_samples
  exact if_neg h

theorem write_samples_osc (note : ℤ) (table : List ℤ) (start len : ℕ)
    (ob : Osc × List ℤ) (h : 0 < note) :
    (write_samples note table start len ob).1
      = (stepOsc (phase_increment note) table_length)^[(len + 1) / 2] ob.1 := by
  unfold write_samples
  rw [if_pos h, foldl_writeFrame_osc, List.length_range]

theorem write_samples_length (note : ℤ) (table : List ℤ) (start len : ℕ)
    (ob : Osc × List ℤ) :
    ((write_samples note table start len ob).2).length = ob.2.length := by
  unfold write_samples
  split_ifs
  · rw [foldl_writeFrame_length]
  · rfl

theorem write_samples_getD_outside (note : ℤ) (table : List ℤ) (start len : ℕ)
    (ob : Osc × List ℤ) (j : ℕ)
    (hj : ∀ f, f < (len + 1) / 2 → j ≠ start + 2 * f ∧ j ≠ start + 2 * f + 1) :
    ((write_samples note table start len ob).2).getD j 0 = ob.2.getD j 0 := by
  unfold write_samples
  split_ifs
  · exact foldl_writeFrame_getD _ _ _ _ _ _ _
      (fun f hf => hj f (List.mem_range.mp hf))
  · rfl

theorem write_samples_pair (note : ℤ) (table : List ℤ) (start len : ℕ)
    (ob : Osc × List ℤ) (heven : start % 2 = 0)
    (hlen : ∀ f, f < (len + 1) / 2 → start + 2 * f + 1 < ob.2.length)
    (hpair : ∀ j, ob.2.getD (2 * j) 0 = ob.2.getD (2 * j + 1) 0) :
    ∀ j, ((write_samples note table start len ob).2).getD (2 * j) 0
        = ((write_samples note table start len ob).2).getD (2 * j + 1) 0 := by
  unfold write_samples
  split_ifs
  · exact foldl_writeFrame_pair _ _ _ _ heven _ _
      (fun f hf => hlen f (List.mem_range.mp hf)) hpair
  · exact hpair

theorem foldl_chunks_osc (note : ℤ) (table : List ℤ) (h : 0 < note) :
    ∀ (l : List ℕ) (ob : Osc × List ℤ),
      ((l.foldl (fun acc i => write_samples note table (64 * i) 64 acc) ob).1)
        = (stepOsc (phase_increment note) table_length)^[32 * l.length] ob.1 := by
  intro l
  induction l with
  | nil => intro ob; rfl
  | cons x xs ih =>
    intro ob
    simp only [List.foldl_cons, List.length_cons]
    rw [ih, write_samples_osc note table _ _ _ h]
    rw [← Function.iterate_add_apply]
    congr 1

theorem foldl_chunks_getD (note : ℤ) (table : List ℤ) :
    ∀ (l : List ℕ) (ob : Osc × List ℤ) (j : ℕ),
      (∀ i ∈ l, 64 * i + 64 ≤ j) →
      ((l.foldl (fun acc i => write_samples note table (64 * i) 64 acc) ob).2).getD j 0
        = ob.2.getD j 0 := by
  intro l
  induction l with
  | nil => intro ob j _; rfl
  | cons x xs ih =>
    intro ob j hj
    simp only [List.foldl_cons]
    rw [ih _ j (fun i hi => hj i (List.mem_cons_of_mem x hi))]
    have hx := hj x (List.mem_cons_self x xs)
    exact write_samples_getD_outside note table _ _ ob j (by intro f hf; omega)

theorem foldl_chunks_pair (note : ℤ) (table : List ℤ) :
    ∀ (l : List ℕ) (ob : Osc × List ℤ),
      (∀ i ∈ l, 64 * i + 64 ≤ ob.2.length) →
      (∀ j, ob.2.getD (2 * j) 0 = ob.2.getD (2 * j + 1) 0) →
      ∀ j, ((l.foldl (fun acc i => write_samples note table (64 * i) 64 acc) ob).2).getD (2 * j) 0
        = ((l.foldl (fun acc i => write_samples note table (64 * i) 64 acc) ob).2).getD (2 * j + 1) 0 := by
  intro l
  induction l with
  | nil => intro ob _ hpair j; exact hpair j
  | cons x xs ih =>
    intro ob hlen hpair j
    simp only [List.foldl_cons]
    have hx := hlen x (List.mem_cons_self x xs)
    apply ih
    · intro i hi
      rw [write_samples_length]
      exact hlen i (List.mem_cons_of_mem x hi)
    · exact write_samples_pair note table _ _ ob (by omega)
        (by intro f hf; omega) hpair

/-- The phase after `k` advance-and-wrap steps from the residue of a
cumulative advance `a` is the residue of `a + k·inc`. -/
theorem iterate_stepOsc_phase (N : ℕ) (inc : ℚ) (h1 : 0 < inc) (h2 : inc < N) :
    ∀ (k : ℕ) (a : ℚ) (z : ℤ),
      ((stepOsc inc N)^[k] ⟨fmodQ a N, z⟩).phase_double
        = fmodQ (a + k * inc) N := by
  intro k
  induction k with
  | zero =>
    intro a z
    simp
  | succ m ih =>
    intro a z
    rw [Function.iterate_succ_apply, stepOsc_fmod N inc h1 h2 a z,
      ih (a + inc) ⌊fmodQ (a + inc) N⌋]
    congr 1
    push_cast
    ring

/-- With an active note the callback's final oscillator state is the initial
one advanced 32 times per rendered 64-slot chunk — once per stereo frame. -/
theorem callback_osc (note : ℤ) (table : List ℤ) (byteLen : ℕ) (o : Osc)
    (h : 0 < note) :
    (audio_callback false note table byteLen o).1
      = (stepOsc (phase_increment note) table_length)^[32 * (byteLen / 2 / 64)] o := by
  unfold audio_callback
  rw [if_neg (by simp), foldl_chunks_osc note table h, List.length_range]

/-! ## Claims about the audio callback -/

/-- C5: with the shutdown flag clear and `note ≤ 0`, a full callback
invocation returns an entirely zeroed buffer and leaves the oscillator state
(`phase_double` and `phase_int`) exactly as it was. -/
theorem callback_silent_on_nonpositive_note (note : ℤ) (table : List ℤ)
    (byteLen : ℕ) (o : Osc) (h : note ≤ 0) :
    audio_callback false note table byteLen o
      = (o, List.replicate (byteLen / 2) 0) := by
  unfold audio_callback
  rw [if_neg (by simp)]
  have main : ∀ (l : List ℕ) (ob : Osc × List ℤ),
      l.foldl (fun acc i => write_samples note table (64 * i) 64 acc) ob = ob := by
    intro l
    induction l with
    | nil => intro ob; rfl
    | cons x xs ih =>
      intro ob
      rw [List.foldl_cons, write_samples_nonpos note table _ _ _ (not_lt.mpr h)]
      exact ih ob
  exact main _ _

theorem callback_silent_on_nonpositive_note_witness :
    audio_callback false 0 (List.replicate 1024 100) 256 ⟨0, 0⟩
      = (⟨0, 0⟩, List.replicate (256 / 2) 0) :=
  callback_silent_on_nonpositive_note 0 (List.replicate 1024 100) 256 ⟨0, 0⟩
    (by decide)

/-- C9: in the per-frame fill step the wavetable is dereferenced only under
the guard `phase_int < table_length && phase_int > -1`, so every performed
table access is in bounds; when the guard fails (no read), the buffer is left
untouched for that frame. -/
theorem table_access_safety (inc : ℚ) (N : ℕ) (table : List ℤ) (o : Osc)
    (buf : List ℤ) (idx : ℕ) :
    (∀ j ∈ frameReads inc N o, j < N) ∧
    (frameReads inc N o = [] → (writeFrame inc N table idx (o, buf)).2 = buf) := by
  constructor
  · intro j hj
    unfold frameReads at hj
    split_ifs at hj with hg
    · simp only [List.mem_singleton] at hj
      subst hj
      omega
    · simp at hj
  · intro hempty
    unfold frameReads at hempty
    unfold writeFrame
    dsimp only
    split_ifs at hempty ⊢ with hg
    all_goals rfl

/-- C10: slots at or beyond `64 * ((byteLen/2) / 64)` are never written and
stay at the zero fill; in particular a buffer with fewer than 64 sample slots
comes back entirely silent even with an active note. -/
theorem callback_tail_slots_zero (q : Bool) (note : ℤ) (table : List ℤ)
    (byteLen : ℕ) (o : Osc) (j : ℕ)
    (hj : 64 * (byteLen / 2 / 64) ≤ j) :
    ((audio_callback q note table byteLen o).2).getD j 0 = 0 ∧
    (byteLen / 2 < 64 →
      (audio_callback q note table byteLen o).2
        = List.replicate (byteLen / 2) 0) := by
  unfold audio_callback
  cases q
  · rw [if_neg (by simp)]
    constructor
    · rw [foldl_chunks_getD note table _ _ j]
      · exact getD_replicate_zero _ _
      · intro i hi
        have := List.mem_range.mp hi
        omega
    · intro hlt
      rw [Nat.div_eq_of_lt hlt]
      rfl
  · rw [if_pos rfl]
    exact ⟨getD_replicate_zero _ _, fun _ => rfl⟩

theorem callback_tail_slots_zero_witness :
    ((audio_callback false 57 (List.replicate 1024 100) 100 ⟨0, 0⟩).2).getD 0 0 = 0 ∧
    (100 / 2 < 64 →
      (audio_callback false 57 (List.replicate 1024 100) 100 ⟨0, 0⟩).2
        = List.replicate (100 / 2) 0) :=
  callback_tail_slots_zero false 57 (List.replicate 1024 100) 100 ⟨0, 0⟩ 0 (by decide)

/-- C6 (amended): with an active note the callback partitions the 16-bit
sample range into fixed chunks of 64 sample slots (32 stereo frames each),
invoking the per-chunk fill over slots `[64*i, 64*i + 64)`; the phase is
advanced exactly once per output frame (32 times per chunk, not once per byte
or channel), and both channels of every frame hold the identical sample. -/
theorem callback_chunking_spec (note : ℤ) (table : List ℤ) (byteLen : ℕ)
    (o : Osc) (h : 0 < note) :
    audio_callback false note table byteLen o
      = (List.range (byteLen / 2 / 64)).foldl
          (fun acc i => write_samples note table (64 * i) 64 acc)
          (o, List.replicate (byteLen / 2) 0) ∧
    (audio_callback false note table byteLen o).1
      = (stepOsc (phase_increment note) table_length)^[32 * (byteLen / 2 / 64)] o ∧
    (∀ j, ((audio_callback false note table byteLen o).2).getD (2 * j) 0
        = ((audio_callback false note table byteLen o).2).getD (2 * j + 1) 0) := by
  have hdef : audio_callback false note table byteLen o
      = (List.range (byteLen / 2 / 64)).foldl
          (fun acc i => write_samples note table (64 * i) 64 acc)
          (o, List.replicate (byteLen / 2) 0) := by
    unfold audio_callback
    rw [if_neg (by simp)]
  refine ⟨hdef, callback_osc note table byteLen o h, ?_⟩
  rw [hdef]
  apply foldl_chunks_pair
  · intro i hi
    have := List.mem_range.mp hi
    simp only [List.length_replicate]
    omega
  · intro j2
    rw [show ((o, List.replicate (byteLen / 2) (0 : ℤ)).2) = List.replicate (byteLen / 2) (0 : ℤ) from rfl,
      getD_replicate_zero, getD_replicate_zero]

theorem callback_chunking_spec_witness :
    audio_callback false 57 (List.replicate 1024 (100 : ℤ)) 128 ⟨0, 0⟩
      = (List.range (128 / 2 / 64)).foldl
          (fun acc i => write_samples 57 (List.replicate 1024 (100 : ℤ)) (64 * i) 64 acc)
          (⟨0, 0⟩, List.replicate (128 / 2) 0) ∧
    (audio_callback false 57 (List.replicate 1024 (100 : ℤ)) 128 ⟨0, 0⟩).1
      = (stepOsc (phase_increment 57) table_length)^[32 * (128 / 2 / 64)] ⟨0, 0⟩ ∧
    (∀ j, ((audio_callback false 57 (List.replicate 1024 (100 : ℤ)) 128 ⟨0, 0⟩).2).getD (2 * j) 0
        = ((audio_callback false 57 (List.replicate 1024 (100 : ℤ)) 128 ⟨0, 0⟩).2).getD (2 * j + 1) 0) :=
  callback_chunking_spec 57 (List.replicate 1024 (100 : ℤ)) 128 ⟨0, 0⟩ (by decide)

/-- C6 counterexample: at byte length 128 — 64 sixteen-bit sample slots, i.e.
32 stereo frames — with note 57 active, the code's callback renders one
64-slot chunk and advances the phase, while the claim's reading (chunks of 64
frames taken from the byteLen/4 frame range) renders no chunk at all and
leaves the state untouched: the two disagree. -/
theorem callback_framechunk_counterexample :
    audio_callback false 57 (List.replicate 1024 (100 : ℤ)) 128 ⟨0, 0⟩
      ≠ audio_callback_framechunks false 57 (List.replicate 1024 (100 : ℤ)) 128 ⟨0, 0⟩ := by
  have hpi : phase_increment 57 = 440 / 44100 * 1024 := by
    unfold phase_increment get_pitch sample_rate table_length
    norm_num
  have hpos : 0 < phase_increment 57 := by rw [hpi]; norm_num
  have hlt : phase_increment 57 < (table_length : ℚ) := by
    rw [hpi]
    unfold table_length
    norm_num
  have hrhs : audio_callback_framechunks false 57 (List.replicate 1024 (100 : ℤ)) 128 ⟨0, 0⟩
      = (⟨0, 0⟩, List.replicate 64 0) := by
    unfold audio_callback_framechunks
    rw [if_neg (by simp)]
    rfl
  have hphase : (audio_callback false 57 (List.replicate 1024 (100 : ℤ)) 128 ⟨0, 0⟩).1.phase_double
      = fmodQ (0 + 32 * phase_increment 57) (table_length : ℚ) := by
    rw [callback_osc 57 _ 128 ⟨0, 0⟩ (by decide)]
    rw [show (⟨0, 0⟩ : Osc) = ⟨fmodQ 0 (table_length : ℚ), 0⟩ by rw [fmodQ_zero]]
    rw [show (32 : ℕ) * (128 / 2 / 64) = 32 from rfl]
    exact iterate_stepOsc_phase table_length _ hpos hlt 32 0 0
  have hval : fmodQ (0 + 32 * phase_increment 57) (table_length : ℚ)
      = 32 * phase_increment 57 := by
    rw [show (0 : ℚ) + 32 * phase_increment 57
        = (table_length : ℚ) * ((0 : ℤ) : ℚ) + 32 * phase_increment 57 by push_cast; ring]
    apply fmodQ_unique
    · unfold table_length
      norm_num
    · rw [hpi]
      norm_num
    · rw [hpi]
      unfold table_length
      norm_num
  intro heq
  have h1 := congrArg (fun r => r.1.phase_double) heq
  simp only at h1
  rw [hphase, hval, hrhs, hpi] at h1
  norm_num at h1

theorem octave_clamp_behavior_witness :
    handle_note_keys .plus ⟨30, 6⟩ = ⟨30, 6⟩ ∧
    handle_note_keys .minus ⟨30, 0⟩ = ⟨30, 0⟩ ∧
    handle_note_keys .plus ⟨30, 2⟩
      = ⟨if max_note < 30 + 12 then max_note else 30 + 12, 2 + 1⟩ ∧
    handle_note_keys .minus ⟨30, 2⟩
      = ⟨if 30 - 12 < min_note then min_note else 30 - 12, 2 - 1⟩ :=
  octave_clamp_behavior ⟨30, 6⟩ ⟨30, 0⟩ ⟨30, 2⟩ ⟨30, 2⟩ rfl rfl (by decide) (by decide)

/-! ## Claims about the wavetable builder -/

theorem truncR_of_nonneg (x : ℝ) (h : 0 ≤ x) : truncR x = ⌊x⌋ := if_pos h

theorem truncR_abs_le (x : ℝ) (c : ℤ) (h : |x| ≤ (c : ℝ)) :
    |truncR x| ≤ c := by
  obtain ⟨hlo, hhi⟩ := abs_le.mp h
  unfold truncR
  split_ifs with hx
  · have h0 : 0 ≤ ⌊x⌋ := Int.floor_nonneg.mpr hx
    have h1 : ⌊x⌋ ≤ ⌊(c : ℝ)⌋ := Int.floor_le_floor hhi
    rw [Int.floor_intCast] at h1
    rw [abs_of_nonneg h0]
    exact h1
  · push_neg at hx
    have h0 : 0 ≤ ⌊-x⌋ := Int.floor_nonneg.mpr (by linarith)
    have h1 : ⌊-x⌋ ≤ ⌊(c : ℝ)⌋ := Int.floor_le_floor (by linarith)
    rw [Int.floor_intCast] at h1
    rw [abs_neg, abs_of_nonneg h0]
    exact h1

theorem build_sine_table_getD (N i : ℕ) (hi : i < N) :
    (build_sine_table N).getD i 0
      = truncR (Real.sin (i * (2 * Real.pi / N)) * 32767) := by
  unfold build_sine_table
  rw [List.getD_eq_getElem?_getD, List.getElem?_map, List.getElem?_range hi]
  rfl

/-- C3 (amended): for every table length `N > 0` the builder produces
exactly `N` samples with `sample[i]` the truncation toward zero of
`sin(2π·i/N) × 32767` (the code casts with `(int)`, which truncates, rather
than rounding to nearest); `table[0] = 0`, every entry is bounded by the
signed 16-bit amplitude ceiling 32767 in absolute value, and at the default
length 1024 the ceiling is attained (entry 256 is exactly 32767). -/
theorem build_sine_table_spec (N : ℕ) (h : 0 < N) :
    (build_sine_table N).length = N ∧
    (∀ i, i < N → (build_sine_table N).getD i 0
        = truncR (Real.sin (i * (2 * Real.pi / N)) * 32767)) ∧
    (build_sine_table N).getD 0 0 = 0 ∧
    (∀ i, |(build_sine_table N).getD i 0| ≤ 32767) ∧
    (build_sine_table 1024).getD 256 0 = 32767 := by
  have habs : ∀ θ : ℝ, |Real.sin θ * 32767| ≤ (32767 : ℝ) := by
    intro θ
    rw [abs_mul]
    have h1 : |Real.sin θ| ≤ 1 :=
      abs_le.mpr ⟨Real.neg_one_le_sin θ, Real.sin_le_one θ⟩
    have h2 : |(32767 : ℝ)| = 32767 := by norm_num
    nlinarith [abs_nonneg (Real.sin θ)]
  refine ⟨?_, fun i hi => build_sine_table_getD N i hi, ?_, ?_, ?_⟩
  · unfold build_sine_table
    simp
  · rw [build_sine_table_getD N 0 h]
    simp [truncR]
  · intro i
    by_cases hi : i < N
    · rw [build_sine_table_getD N i hi]
      exact truncR_abs_le _ _ (habs _)
    · rw [List.getD_eq_default]
      · norm_num
      · unfold build_sine_table
        simp only [List.length_map, List.length_range]
        omega
  · rw [build_sine_table_getD 1024 256 (by norm_num)]
    have hangle : ((256 : ℕ) : ℝ) * (2 * Real.pi / (1024 : ℕ)) = Real.pi / 2 := by
      push_cast
      ring
    rw [hangle, Real.sin_pi_div_two, one_mul,
      truncR_of_nonneg _ (by norm_num)]
    rw [show ((32767 : ℝ)) = ((32767 : ℤ) : ℝ) by norm_num, Int.floor_intCast]

theorem build_sine_table_spec_witness :
    (build_sine_table 12).length = 12 ∧
    (∀ i, i < 12 → (build_sine_table 12).getD i 0
        = truncR (Real.sin (i * (2 * Real.pi / 12)) * 32767)) ∧
    (build_sine_table 12).getD 0 0 = 0 ∧
    (∀ i, |(build_sine_table 12).getD i 0| ≤ 32767) ∧
    (build_sine_table 1024).getD 256 0 = 32767 :=
  build_sine_table_spec 12 (by norm_num)

/-- C3 counterexample: at table length 12, index 1 the builder stores
`(int)(sin(π/6) * 32767) = ⌊16383.5⌋ = 16383`, while the claimed rounding
formula gives `round(16383.5) = 16384`: the builder truncates toward zero, it
does not round to nearest. -/
theorem build_sine_table_round_counterexample :
    (build_sine_table 12).getD 1 0 = 16383 ∧
    round (Real.sin ((1 : ℕ) * (2 * Real.pi / (12 : ℕ))) * 32767) = 16384 ∧
    (build_sine_table 12).getD 1 0
      ≠ round (Real.sin ((1 : ℕ) * (2 * Real.pi / (12 : ℕ))) * 32767) := by
  have hsin : Real.sin (((1 : ℕ) : ℝ) * (2 * Real.pi / ((12 : ℕ) : ℝ))) = 1 / 2 := by
    rw [show ((1 : ℕ) : ℝ) * (2 * Real.pi / ((12 : ℕ) : ℝ)) = Real.pi / 6 by
      push_cast; ring]
    exact Real.sin_pi_div_six
  have h1 : (build_sine_table 12).getD 1 0 = 16383 := by
    rw [build_sine_table_getD 12 1 (by norm_num), hsin,
      truncR_of_nonneg _ (by norm_num)]
    apply Int.floor_eq_iff.mpr
    constructor <;> norm_num
  have h2 : round (Real.sin (((1 : ℕ) : ℝ) * (2 * Real.pi / ((12 : ℕ) : ℝ))) * 32767)
      = 16384 := by
    rw [hsin, round_eq, show ((1 : ℝ) / 2 * 32767 + 1 / 2) = ((16384 : ℤ) : ℝ) by
      norm_num]
    exact Int.floor_intCast 16384
  refine ⟨h1, h2, ?_⟩
  rw [h1, h2]
  decide

end Synth
